import Mathlib

/-!
Shallow embedding of the CSR sparse-matrix implementation in
`src/ex00/sparse_matrix.cc` (class `SparseMatrix<T>`), together with proofs
about its construction protocol, element access and relaxation kernels.

Modelling conventions:
* C++ `std::vector` indexing `v[i]` is modelled by `List.getD v i 0`
  (all indexing in the source is in bounds, guarded by `assert`s that
  appear as hypotheses of the theorems below).
* The companion dense vector type (`Vector.h`, not part of `src/`) is
  modelled as `List α`; its element access, in-place `+=` and `dot`
  product are modelled from the spec (section 4.1).
* The function-local `static unsigned int count` inside
  `SparseMatrix<T>::set` is process-global state shared by all matrices of
  one element type; it is modelled by threading an explicit counter
  through `set` (the pair `SparseMatrix α × ℕ`).
* Numeric element types (`int`, `float`, `double` in the source) are
  modelled by an arbitrary field `α` (exact `ℚ` in concrete instances).
* `abort ()` and the mutable-reference return of `operator()` are
  modelled with `Option`: `none` is the aborted computation.
* `std::sqrt` on `double` is modelled by `Real.sqrt` on the exact result.
-/

namespace FemBook

/-- Construction state of a matrix: `OPEN` while the sparsity pattern is
being built, `CLOSED` afterwards (source: `state` member, set in the
`nrow` constructor and in `close`). -/
inductive MState where
  | OPEN : MState
  | CLOSED : MState
deriving DecidableEq

/-- CSR sparse matrix, mirroring the data members of `SparseMatrix<T>`:
`nrow`, `row_ptr`, `col_ind`, `val` and the construction `state`. -/
structure SparseMatrix (α : Type) where
  nrow : ℕ
  row_ptr : List ℕ
  col_ind : List ℕ
  val : List α
  state : MState
deriving DecidableEq

/-- The `SparseMatrix (unsigned int nrow)` constructor (lines 35-43):
`row_ptr` is resized to `nrow+1` zeros and the state becomes `OPEN`.
The `assert (nrow > 0)` is a precondition of the theorems. -/
def construct (α : Type) (nrow : ℕ) : SparseMatrix α :=
  { nrow := nrow
    row_ptr := List.replicate (nrow + 1) 0
    col_ind := []
    val := []
    state := MState.OPEN }

/-- The triple constructor (lines 13-30): wraps a caller-supplied CSR
triple.  The class header `sparse_matrix.h` is not part of `src/`;
following the spec (section 3, lifecycle) a triple-constructed matrix is
immediately usable, i.e. `CLOSED`. -/
def fromTriple (α : Type) (row_ptr col_ind : List ℕ) (val : List α) :
    SparseMatrix α :=
  { nrow := row_ptr.length - 1
    row_ptr := row_ptr
    col_ind := col_ind
    val := val
    state := MState.CLOSED }

/-- The `assert`s of the triple constructor (lines 23-29): sizes are
consistent and every stored column index is a valid column. -/
def validTriple (α : Type) (row_ptr col_ind : List ℕ) (val : List α) : Prop :=
  2 ≤ row_ptr.length ∧ 0 < col_ind.length ∧ col_ind.length = val.length ∧
  row_ptr.getD (row_ptr.length - 1) 0 = val.length ∧
  ∀ c ∈ col_ind, c < row_ptr.length - 1

/-- Source `SparseMatrix<T>::set` (lines 49-67).  `count` is the function-local
`static` counter, threaded explicitly; the result pairs the updated
matrix with the updated counter.  Body, in source order:
`if (row_ptr[i+1] == 0) row_ptr[i+1] = count; ++count; ++row_ptr[i+1];`
then `col_ind.push_back(j); val.push_back(value);`.
The `assert`s (`state == OPEN`, `i < nrow`, `j < nrow`) are preconditions
of the theorems. -/
def SparseMatrix.set {α : Type} (A : SparseMatrix α) (count : ℕ)
    (i j : ℕ) (value : α) : SparseMatrix α × ℕ :=
  let rp1 := if A.row_ptr.getD (i + 1) 0 = 0
    then A.row_ptr.set (i + 1) count else A.row_ptr
  ({ A with
      row_ptr := rp1.set (i + 1) (rp1.getD (i + 1) 0 + 1)
      col_ind := A.col_ind ++ [j]
      val := A.val ++ [value] }, count + 1)

/-- One entry of a build trace: `(row, column, value)` of one `set` call. -/
abbrev Entry (α : Type) := ℕ × ℕ × α

/-- Run a sequence of `set` calls from a given matrix-and-counter state. -/
def buildSteps {α : Type} (s : SparseMatrix α × ℕ) (es : List (Entry α)) :
    SparseMatrix α × ℕ :=
  es.foldl (fun p e => p.1.set p.2 e.1 e.2.1 e.2.2) s

/-- The rows of a build trace, in insertion order. -/
def rowsOf {α : Type} (es : List (Entry α)) : List ℕ :=
  es.map (fun e => e.1)

/-- Number of trace entries inserted into row `k`. -/
def rowCount {α : Type} (es : List (Entry α)) (k : ℕ) : ℕ :=
  (rowsOf es).countP (fun r => decide (r = k))

/-- Number of trace entries inserted into rows `0..k` (the cumulative
entry count through row `k`). -/
def countLE {α : Type} (es : List (Entry α)) (k : ℕ) : ℕ :=
  (rowsOf es).countP (fun r => decide (r ≤ k))

/-- One iteration of the loop in `close` (lines 76-83) at position `i`:
if `row_ptr[i] == 0` then `row_ptr[i] = row_ptr[i-1]` and the empty-row
diagnostic for position `i` is emitted.  The accumulator pairs the
current `row_ptr` with the list of emitted diagnostic positions. -/
def closeStep (p : List ℕ × List ℕ) (i : ℕ) : List ℕ × List ℕ :=
  if p.1.getD i 0 = 0 then (p.1.set i (p.1.getD (i - 1) 0), p.2 ++ [i])
  else p

/-- Source `SparseMatrix<T>::close` (lines 72-86): the loop
`for (i = 1; i < nrow+1; ++i)` fixes empty rows, then `state = CLOSED`.
Returns the closed matrix together with the emitted diagnostics. -/
def SparseMatrix.close {α : Type} (A : SparseMatrix α) :
    SparseMatrix α × List ℕ :=
  let p := (List.range' 1 A.nrow).foldl closeStep (A.row_ptr, [])
  ({ A with row_ptr := p.1, state := MState.CLOSED }, p.2)

/-- Storage slots of row `i`: the index range
`row_ptr[i] .. row_ptr[i+1]-1` scanned by the element accessors. -/
def SparseMatrix.rowRange {α : Type} (A : SparseMatrix α) (i : ℕ) : List ℕ :=
  List.range' (A.row_ptr.getD i 0)
    (A.row_ptr.getD (i + 1) 0 - A.row_ptr.getD i 0)

/-- The scan loop shared by both `operator()` overloads (lines 97-99 and
112-114): return the first storage slot `d` in the given slot list with
`col_ind[d] == j`, or `none`. -/
def findCol (col_ind : List ℕ) (j : ℕ) : List ℕ → Option ℕ
  | [] => none
  | d :: ds => if col_ind.getD d 0 = j then some d else findCol col_ind j ds

/-- Source `T SparseMatrix<T>::operator()(i, j) const` (lines 91-101): scan row
`i` for column `j`; return the stored value, or `0` when absent. -/
def SparseMatrix.get {α : Type} [Zero α] (A : SparseMatrix α)
    (i j : ℕ) : α :=
  match findCol A.col_ind j (A.rowRange i) with
  | some d => A.val.getD d 0
  | none => 0

/-- Source `T& SparseMatrix<T>::operator()(i, j)` (lines 106-117): the same
scan; a found slot is the mutable handle, and the not-found case prints
a message and calls `abort ()`, modelled as `none`. -/
def SparseMatrix.get_mut {α : Type} (A : SparseMatrix α) (i j : ℕ) :
    Option ℕ :=
  findCol A.col_ind j (A.rowRange i)

/-- Writing through the mutable handle returned by `operator()(i, j)`:
the stored value at the found slot is replaced; in the aborted case no
matrix results. -/
def SparseMatrix.writeAt {α : Type} (A : SparseMatrix α) (i j : ℕ)
    (v : α) : Option (SparseMatrix α) :=
  (A.get_mut i j).map (fun d => { A with val := A.val.set d v })

/-- The mathematical row sum `Σ_d val[d] * x[col_ind[d]]` over the stored
slots of row `i`, used to state what the kernel loops compute. -/
def SparseMatrix.rowSum {α : Type} [Field α] (A : SparseMatrix α)
    (x : List α) (i : ℕ) : α :=
  ((A.rowRange i).map
    (fun d => A.val.getD d 0 * x.getD (A.col_ind.getD d 0) 0)).sum

/-- Source `SparseMatrix<T>::multiply` (lines 122-138): for each row `i`,
`y(i) = 0; y(i) += val[d]*x(col_ind[d]) ...; y(i) *= scalar;`.  The
per-row accumulation into `y(i)` (which starts from `0` and only ever
touches `y(i)`) is modelled by a local fold whose result is stored once.
The `assert`s `x.size() == nrow` and `x.size() == y.size()` are
preconditions of the theorems.  `x` is never written (the parameter is
`const`). -/
def SparseMatrix.multiply {α : Type} [Field α] (A : SparseMatrix α)
    (x y : List α) (scalar : α) : List α :=
  (List.range A.nrow).foldl
    (fun yy i =>
      yy.set i
        (((A.rowRange i).foldl
          (fun acc d => acc + A.val.getD d 0 * x.getD (A.col_ind.getD d 0) 0)
          0) * scalar))
    y

/-- Source `SparseMatrix<T>::diag` (lines 143-147): `val[row_ptr[i]]`, the
first stored entry of row `i`; no search for a stored column `== i`. -/
def SparseMatrix.diag {α : Type} [Field α] (A : SparseMatrix α)
    (i : ℕ) : α :=
  A.val.getD (A.row_ptr.getD i 0) 0

/-- Modelled from the spec: `dot(a, b)` of `math_functions.h` (not under
`src/`), specified in section 4.1 as the sum over `i` of `a[i] * b[i]`. -/
def dot {α : Type} [Field α] (a b : List α) : α :=
  (List.zipWith (fun s t => s * t) a b).sum

/-- Source `SparseMatrix<T>::Jacobi_step` (lines 152-164):
`multiply(x, r, -1); r += rhs;` then `x(i) += r(i)/diag(i)` for every
row; the source returns `sqrt(dot(r, r))`, modelled by returning the
radicand `dot r r` exactly (see `Jacobi_norm`).  The vector `+=` is the
element-wise addition of `Vector.h`, modelled from the spec
(section 4.1). -/
def SparseMatrix.Jacobi_step {α : Type} [Field α] (A : SparseMatrix α)
    (x rhs : List α) : List α × α :=
  let r0 := A.multiply x (List.replicate A.nrow 0) (-1)
  let r := List.zipWith (fun s t => s + t) r0 rhs
  ((List.range A.nrow).foldl
      (fun v i => v.set i (v.getD i 0 + r.getD i 0 / A.diag i)) x,
    dot r r)

/-- The value returned by `Jacobi_step`: `std::sqrt` of the radicand. -/
noncomputable def Jacobi_norm (A : SparseMatrix ℚ) (x rhs : List ℚ) : ℝ :=
  Real.sqrt (((A.Jacobi_step x rhs).2 : ℚ) : ℝ)

/-- The loop body of `SOR_step` (lines 177-183) at row `i`, acting on
the pair (current `x`, accumulated `res`):
`r = rhs(i); r -= val[d]*x(col_ind[d]) ...;`
`x(i) += omg * r / diag(i); res += r*r;`. -/
def sorRow {α : Type} [Field α] (A : SparseMatrix α) (rhs : List α)
    (omg : α) (p : List α × α) (i : ℕ) : List α × α :=
  let r := (A.rowRange i).foldl
    (fun acc d => acc - A.val.getD d 0 * p.1.getD (A.col_ind.getD d 0) 0)
    (rhs.getD i 0)
  (p.1.set i (p.1.getD i 0 + omg * r / A.diag i), p.2 + r * r)

/-- Source `SparseMatrix<T>::SOR_step` (lines 169-187): one ascending sweep of
the loop body over rows `0..nrow-1` starting from `res = 0`; the source
returns `sqrt(res)`, modelled by returning the pair (final `x`, final
`res`) exactly (see `SOR_norm`). -/
def SparseMatrix.SOR_step {α : Type} [Field α] (A : SparseMatrix α)
    (x rhs : List α) (omg : α) : List α × α :=
  (List.range A.nrow).foldl (sorRow A rhs omg) (x, 0)

/-- The value returned by `SOR_step`: `std::sqrt` of the radicand. -/
noncomputable def SOR_norm (A : SparseMatrix ℚ) (x rhs : List ℚ)
    (omg : ℚ) : ℝ :=
  Real.sqrt (((A.SOR_step x rhs omg).2 : ℚ) : ℝ)

/-- The forward loop body of `SSOR_step` (lines 198-206) at row `i`:
identical to the `SOR_step` body except that no residual is
accumulated. -/
def ssorFwdRow {α : Type} [Field α] (A : SparseMatrix α) (rhs : List α)
    (omg : α) (x : List α) (i : ℕ) : List α :=
  let r := (A.rowRange i).foldl
    (fun acc d => acc - A.val.getD d 0 * x.getD (A.col_ind.getD d 0) 0)
    (rhs.getD i 0)
  x.set i (x.getD i 0 + omg * r / A.diag i)

/-- Source `SparseMatrix<T>::SSOR_step` (lines 192-222): the forward loop over
rows `0..nrow-1` (no residual), then the backward loop
`for (int i = nrow-1; i >= 0; --i)` whose body is textually the
`SOR_step` body, starting from `res = 0`; the source returns
`sqrt(res)` of the backward loop's accumulator (see `SSOR_norm`). -/
def SparseMatrix.SSOR_step {α : Type} [Field α] (A : SparseMatrix α)
    (x rhs : List α) (omg : α) : List α × α :=
  let x1 := (List.range A.nrow).foldl (ssorFwdRow A rhs omg) x
  (List.range A.nrow).reverse.foldl (sorRow A rhs omg) (x1, 0)

/-- The value returned by `SSOR_step`: `std::sqrt` of the radicand. -/
noncomputable def SSOR_norm (A : SparseMatrix ℚ) (x rhs : List ℚ)
    (omg : ℚ) : ℝ :=
  Real.sqrt (((A.SSOR_step x rhs omg).2 : ℚ) : ℝ)

/-- Spec-side formulation of the `SOR_step` row update (spec section
4.4): `r = rhs[i] - Σ_j A[i,j]*x[j]` over the stored entries of row
`i` using the current `x`, then `x[i] += omega*r/diag(i)` and
`res += r*r`. -/
def sorRowSpec {α : Type} [Field α] (A : SparseMatrix α) (rhs : List α)
    (omg : α) (p : List α × α) (i : ℕ) : List α × α :=
  let r := rhs.getD i 0 - A.rowSum p.1 i
  (p.1.set i (p.1.getD i 0 + omg * r / A.diag i), p.2 + r * r)

/-- Spec-side ascending sweep: process rows `0..n-1` in ascending index
order, each row seeing the `x` produced by the rows before it. -/
def sorSpecAux {α : Type} [Field α] (A : SparseMatrix α) (rhs : List α)
    (omg : α) (x : List α) : ℕ → List α × α
  | 0 => (x, 0)
  | n + 1 => sorRowSpec A rhs omg (sorSpecAux A rhs omg x n) n

/-- Spec-side formulation of one SOR sweep over all rows. -/
def sorSpec {α : Type} [Field α] (A : SparseMatrix α) (x rhs : List α)
    (omg : α) : List α × α :=
  sorSpecAux A rhs omg x A.nrow

/-- Spec-side descending sweep: `ssorBackAux A rhs omg k p` processes
rows `k-1, k-2, ..., 0` in descending index order starting from `p`. -/
def ssorBackAux {α : Type} [Field α] (A : SparseMatrix α) (rhs : List α)
    (omg : α) : ℕ → List α × α → List α × α
  | 0, p => p
  | k + 1, p => ssorBackAux A rhs omg k (sorRowSpec A rhs omg p k)

/-- Spec-side formulation of one SSOR step (spec section 4.4): a forward
sweep with the `sor_step` update rule and its residual discarded,
followed by a backward sweep over the resulting `x` whose accumulated
residual is the result. -/
def ssorSpec {α : Type} [Field α] (A : SparseMatrix α) (x rhs : List α)
    (omg : α) : List α × α :=
  ssorBackAux A rhs omg A.nrow ((sorSpec A x rhs omg).1, 0)

/-- A closed 2-by-2 matrix from a valid CSR triple whose row 0 stores
columns `[1, 0]` (the diagonal entry is not first): row 0 holds
`A(0,1) = 5`, `A(0,0) = 7`; row 1 holds `A(1,0) = 9`. -/
def exM : SparseMatrix ℚ :=
  fromTriple ℚ [0, 2, 3] [1, 0, 0] [5, 7, 9]

/-- The 3-by-3 identity-pattern matrix of spec section 8, built by the
incremental protocol (`construct(3)`, `set(0,0,1)`, `set(1,1,1)`,
`set(2,2,1)`, `close()`) starting from counter `0`. -/
def idM3 : SparseMatrix ℚ :=
  ((buildSteps (construct ℚ 3, 0) [(0, 0, 1), (1, 1, 1), (2, 2, 1)]).1.close).1

/-! ### Generic list helper lemmas -/

/-- Value of `getD` after `set` at the written (in-bounds) index. -/
theorem getD_set_same {α : Type} (l : List α) (i : ℕ) (v d : α)
    (h : i < l.length) : (l.set i v).getD i d = v := by
  simp [List.getD_eq_getElem?_getD, List.getElem?_set_self, h]

/-- Value of `getD` after `set` at a different index. -/
theorem getD_set_other {α : Type} (l : List α) (i k : ℕ) (v d : α)
    (h : i ≠ k) : (l.set i v).getD k d = l.getD k d := by
  simp [List.getD_eq_getElem?_getD, List.getElem?_set_ne h]

/-- A left fold that keeps adding `f d` computes `init` plus the sum. -/
theorem foldl_add_eq {α : Type} [Field α] (f : ℕ → α) (l : List ℕ) :
    ∀ init : α, l.foldl (fun a d => a + f d) init = init + (l.map f).sum := by
  induction l with
  | nil => simp
  | cons d ds ih => intro init; simp only [List.foldl_cons, ih, List.map_cons,
      List.sum_cons]; ring

/-- A left fold that keeps subtracting `f d` computes `init` minus the sum. -/
theorem foldl_sub_eq {α : Type} [Field α] (f : ℕ → α) (l : List ℕ) :
    ∀ init : α, l.foldl (fun a d => a - f d) init = init - (l.map f).sum := by
  induction l with
  | nil => simp
  | cons d ds ih => intro init; simp only [List.foldl_cons, ih, List.map_cons,
      List.sum_cons]; ring

/-- Value of `getD` on a `zipWith`, both indices in bounds. -/
theorem getD_zipWith {α : Type} (f : α → α → α) :
    ∀ (a b : List α) (i : ℕ), i < a.length → i < b.length → ∀ d : α,
      (List.zipWith f a b).getD i d = f (a.getD i d) (b.getD i d) := by
  intro a
  induction a with
  | nil => intro b i hi; simp at hi
  | cons x xs ih =>
    intro b i
    cases b with
    | nil => intro _ hb; simp at hb
    | cons y ys =>
      cases i with
      | zero => intro _ _ d; simp
      | succ i =>
        intro ha hb d
        simp only [List.zipWith_cons_cons, List.getD_cons_succ]
        exact ih ys i (by simpa using ha) (by simpa using hb) d

/-- An in-place update fold over `List.range n` preserves the length. -/
theorem foldl_update_length {α : Type} (g : ℕ → List α → α) :
    ∀ (n : ℕ) (x : List α),
      ((List.range n).foldl (fun v i => v.set i (g i v)) x).length
        = x.length := by
  intro n
  induction n with
  | zero => intro x; simp
  | succ n ih =>
    intro x
    simp only [List.range_succ, List.foldl_append, List.foldl_cons,
      List.foldl_nil, List.length_set, ih]

/-- An in-place update fold over `List.range n` does not touch indices
`≥ n`. -/
theorem foldl_update_getD_ge {α : Type} (g : ℕ → List α → α) :
    ∀ (n : ℕ) (x : List α) (i : ℕ), n ≤ i → ∀ d : α,
      ((List.range n).foldl (fun v i => v.set i (g i v)) x).getD i d
        = x.getD i d := by
  intro n
  induction n with
  | zero => intro x i _ d; simp
  | succ n ih =>
    intro x i hi d
    simp only [List.range_succ, List.foldl_append, List.foldl_cons,
      List.foldl_nil]
    rw [getD_set_other _ _ _ _ _ (by omega), ih x i (by omega)]

/-- An in-place update fold over `List.range n`, at an index `i < n`
that is in bounds: position `i` holds `g i` applied to the state after
the first `i` updates, in which position `i` still holds its original
value.  Specialized to update functions that read only position `i` of
the state. -/
theorem foldl_update_getD_lt {α : Type} (g : ℕ → α → α) :
    ∀ (n : ℕ) (x : List α) (i : ℕ), i < n → i < x.length → ∀ d : α,
      ((List.range n).foldl (fun v i => v.set i (g i (v.getD i d))) x).getD i d
        = g i (x.getD i d) := by
  intro n
  induction n with
  | zero => intro x i hi; omega
  | succ n ih =>
    intro x i hi hx d
    simp only [List.range_succ, List.foldl_append, List.foldl_cons,
      List.foldl_nil]
    rcases Nat.lt_or_ge i n with h | h
    · rw [getD_set_other _ _ _ _ _ (by omega), ih x i h hx]
    · have hin : i = n := by omega
      subst hin
      rw [foldl_update_getD_ge (fun i v => g i (v.getD i d)) i x i le_rfl d]
      rw [getD_set_same]
      rw [foldl_update_length (fun i v => g i (v.getD i d)) i x]
      exact hx

/-! ### Scan-loop (`findCol`) lemmas -/

/-- The scan returns `none` exactly when no scanned slot matches. -/
theorem findCol_eq_none_iff (ci : List ℕ) (j : ℕ) (l : List ℕ) :
    findCol ci j l = none ↔ ∀ d ∈ l, ci.getD d 0 ≠ j := by
  induction l with
  | nil => simp [findCol]
  | cons d ds ih =>
    by_cases h : ci.getD d 0 = j
    · simp only [findCol, if_pos h]
      exact ⟨fun hc => Option.noConfusion hc,
        fun hall => absurd h (hall d (List.mem_cons_self d ds))⟩
    · simp only [findCol, if_neg h, ih]
      constructor
      · intro hall d' hd'
        rcases List.mem_cons.mp hd' with rfl | hmem
        · exact h
        · exact hall d' hmem
      · intro hall d' hd'
        exact hall d' (List.mem_cons_of_mem d hd')

/-- A found slot is a scanned slot and matches. -/
theorem findCol_eq_some_mem (ci : List ℕ) (j : ℕ) (l : List ℕ) (d : ℕ) :
    findCol ci j l = some d → d ∈ l ∧ ci.getD d 0 = j := by
  induction l with
  | nil => simp [findCol]
  | cons a as ih =>
    by_cases h : ci.getD a 0 = j
    · simp only [findCol, if_pos h, Option.some.injEq]
      intro hd; subst hd; exact ⟨List.mem_cons_self a as, h⟩
    · simp only [findCol, if_neg h]
      intro hd
      obtain ⟨hmem, hj⟩ := ih hd
      exact ⟨List.mem_cons_of_mem a hmem, hj⟩

/-- On an ascending slot range, the found slot is the first match: every
strictly smaller scanned slot does not match. -/
theorem findCol_range'_first (ci : List ℕ) (j : ℕ) :
    ∀ (len s d : ℕ), findCol ci j (List.range' s len) = some d →
      ∀ d' ∈ List.range' s len, d' < d → ci.getD d' 0 ≠ j := by
  intro len
  induction len with
  | zero => intro s d h; simp [List.range', findCol] at h
  | succ len ih =>
    intro s d h d' hd' hlt
    rw [List.range'_succ] at h hd'
    by_cases hs : ci.getD s 0 = j
    · simp only [findCol, if_pos hs, Option.some.injEq] at h
      subst h
      rcases List.mem_cons.mp hd' with h | h
      · omega
      · have := (List.mem_range'_1.mp h).1
        omega
    · simp only [findCol, if_neg hs] at h
      rcases List.mem_cons.mp hd' with h' | h'
      · subst h'; exact hs
      · exact ih (s + 1) d h d' h' hlt

/-- Value of `getD` on a `replicate`, with the replicated element as default. -/
theorem getD_replicate_self {α : Type} (a : α) (n i : ℕ) :
    (List.replicate n a).getD i a = a := by
  rcases Nat.lt_or_ge i n with h | h
  · simp [List.getD_eq_getElem?_getD, List.getElem?_replicate, h]
  · rw [List.getD_eq_default]
    simpa using h

/-- The run `buildSteps` distributes over trace concatenation. -/
theorem buildSteps_append {α : Type} (s : SparseMatrix α × ℕ)
    (es1 es2 : List (Entry α)) :
    buildSteps s (es1 ++ es2) = buildSteps (buildSteps s es1) es2 := by
  simp [buildSteps, List.foldl_append]

/-! ### The build-protocol invariant

Running a row-ascending trace of `set` calls from `construct nrow` with
initial static counter `c0` yields: counter advanced by the trace
length, `col_ind`/`val` the per-entry columns/values in insertion order,
and `row_ptr[k+1]` equal to `c0` plus the cumulative entry count through
row `k` for every row `k` that received an entry — while rows that
received no entry keep `row_ptr[k+1] = 0`. -/

theorem buildSteps_invariant {α : Type} (nrow c0 : ℕ) :
    ∀ es : List (Entry α),
      (rowsOf es).Pairwise (fun a b => a ≤ b) →
      (∀ r ∈ rowsOf es, r < nrow) →
      (buildSteps (construct α nrow, c0) es).1.nrow = nrow ∧
      (buildSteps (construct α nrow, c0) es).1.state = MState.OPEN ∧
      (buildSteps (construct α nrow, c0) es).2 = c0 + es.length ∧
      (buildSteps (construct α nrow, c0) es).1.col_ind
        = es.map (fun e => e.2.1) ∧
      (buildSteps (construct α nrow, c0) es).1.val
        = es.map (fun e => e.2.2) ∧
      (buildSteps (construct α nrow, c0) es).1.row_ptr.length = nrow + 1 ∧
      (buildSteps (construct α nrow, c0) es).1.row_ptr.getD 0 0 = 0 ∧
      ∀ k, k < nrow →
        (rowCount es k = 0 →
          (buildSteps (construct α nrow, c0) es).1.row_ptr.getD (k + 1) 0
            = 0) ∧
        (rowCount es k ≠ 0 →
          (buildSteps (construct α nrow, c0) es).1.row_ptr.getD (k + 1) 0
            = c0 + countLE es k) := by
  intro es
  induction es using List.reverseRecOn with
  | nil =>
    intro _ _
    refine ⟨rfl, rfl, by simp [buildSteps], rfl, rfl,
      by simp [buildSteps, construct], ?_, ?_⟩
    · simpa [buildSteps, construct] using getD_replicate_self 0 (nrow + 1) 0
    · intro k _
      constructor
      · intro _
        simpa [buildSteps, construct] using
          getD_replicate_self 0 (nrow + 1) (k + 1)
      · intro hc
        simp [rowCount, rowsOf] at hc
  | append_singleton es' e ih =>
    intro hsort hlt
    obtain ⟨i, j, v⟩ := e
    have hro : rowsOf (es' ++ [(i, j, v)]) = rowsOf es' ++ [i] := by
      simp [rowsOf]
    rw [hro] at hsort hlt
    obtain ⟨hs', -, hall⟩ := List.pairwise_append.mp hsort
    have hall' : ∀ a ∈ rowsOf es', a ≤ i := fun a ha =>
      hall a ha i (List.mem_singleton.mpr rfl)
    have hi : i < nrow := hlt i (by simp)
    have hlt' : ∀ r ∈ rowsOf es', r < nrow := fun r hr =>
      hlt r (List.mem_append.mpr (Or.inl hr))
    obtain ⟨h1, h2, h3, h4, h5, h6, h7, h8⟩ := ih hs' hlt'
    have hstep : buildSteps (construct α nrow, c0) (es' ++ [(i, j, v)])
        = ((buildSteps (construct α nrow, c0) es').1.set
            (buildSteps (construct α nrow, c0) es').2 i j v) := by
      rw [buildSteps_append]
      simp [buildSteps]
    have hcntLE : countLE es' i = es'.length := by
      have : (rowsOf es').countP (fun r => decide (r ≤ i))
          = (rowsOf es').length := by
        rw [List.countP_eq_length]
        intro a ha
        simpa using hall' a ha
      simpa [countLE, rowsOf] using this
    -- the two possible shapes of the written `row_ptr`
    rw [hstep]
    by_cases hz :
        (buildSteps (construct α nrow, c0) es').1.row_ptr.getD (i + 1) 0 = 0
    all_goals
      simp only [SparseMatrix.set, hz, if_pos, if_neg, if_true, if_false,
        reduceIte]
    -- case `row_ptr[i+1] == 0` (first entry of row `i`)
    · refine ⟨h1, h2, ?_, ?_, ?_, ?_, ?_, ?_⟩
      · simp [h3]; omega
      · simp [h4]
      · simp [h5]
      · simpa using h6
      · rw [getD_set_other _ _ _ _ _ (by omega),
          getD_set_other _ _ _ _ _ (by omega)]
        exact h7
      · intro k hk
        rcases Nat.lt_trichotomy k i with hki | hki | hki
        · -- rows below `i`: untouched, counts unchanged
          rw [getD_set_other _ _ _ _ _ (by omega),
            getD_set_other _ _ _ _ _ (by omega)]
          have hrc : rowCount (es' ++ [(i, j, v)]) k = rowCount es' k := by
            simp [rowCount, rowsOf, List.countP_append]
            omega
          have hcle : countLE (es' ++ [(i, j, v)]) k = countLE es' k := by
            simp [countLE, rowsOf, List.countP_append]
            omega
          rw [hrc, hcle]
          exact h8 k hk
        · -- row `i` itself, first entry: written to counter, then bumped
          subst hki
          have hbound : k + 1 <
              ((buildSteps (construct α nrow, c0) es').1.row_ptr.set (k + 1)
                (buildSteps (construct α nrow, c0) es').2).length := by
            rw [List.length_set, h6]; omega
          have hbound2 : k + 1 <
              (buildSteps (construct α nrow, c0) es').1.row_ptr.length := by
            rw [h6]; omega
          constructor
          · intro hc
            exfalso
            have : rowCount (es' ++ [(k, j, v)]) k ≠ 0 := by
              simp [rowCount, rowsOf, List.countP_append, List.countP_cons]
            exact this hc
          · intro _
            rw [getD_set_same _ _ _ _ hbound,
              getD_set_same _ _ _ _ hbound2, h3]
            have : countLE (es' ++ [(k, j, v)]) k = countLE es' k + 1 := by
              simp [countLE, rowsOf, List.countP_append, List.countP_cons]
            rw [this, hcntLE]
            omega
        · -- rows above `i`: necessarily still empty
          have hrc' : rowCount es' k = 0 := by
            simp only [rowCount, List.countP_eq_zero]
            intro a ha
            have := hall' a ha
            simp only [decide_eq_true_eq]
            omega
          have hrc : rowCount (es' ++ [(i, j, v)]) k = 0 := by
            simp only [rowCount, hro, List.countP_append, List.countP_cons,
              List.countP_nil]
            simp only [rowCount] at hrc'
            simp [hrc']
            omega
          constructor
          · intro _
            rw [getD_set_other _ _ _ _ _ (by omega),
              getD_set_other _ _ _ _ _ (by omega)]
            exact (h8 k hk).1 hrc'
          · intro hc
            exact absurd hrc hc
    -- case `row_ptr[i+1] != 0` (row `i` already has entries)
    · refine ⟨h1, h2, ?_, ?_, ?_, ?_, ?_, ?_⟩
      · simp [h3]; omega
      · simp [h4]
      · simp [h5]
      · simpa using h6
      · rw [getD_set_other _ _ _ _ _ (by omega)]
        exact h7
      · intro k hk
        rcases Nat.lt_trichotomy k i with hki | hki | hki
        · rw [getD_set_other _ _ _ _ _ (by omega)]
          have hrc : rowCount (es' ++ [(i, j, v)]) k = rowCount es' k := by
            simp [rowCount, rowsOf, List.countP_append]
            omega
          have hcle : countLE (es' ++ [(i, j, v)]) k = countLE es' k := by
            simp [countLE, rowsOf, List.countP_append]
            omega
          rw [hrc, hcle]
          exact h8 k hk
        · subst hki
          have hrcne : rowCount es' k ≠ 0 := by
            intro hc
            exact hz ((h8 k hk).1 hc)
          have hbound2 : k + 1 <
              (buildSteps (construct α nrow, c0) es').1.row_ptr.length := by
            rw [h6]; omega
          constructor
          · intro hc
            exfalso
            have : rowCount (es' ++ [(k, j, v)]) k ≠ 0 := by
              simp [rowCount, rowsOf, List.countP_append, List.countP_cons]
            exact this hc
          · intro _
            rw [getD_set_same _ _ _ _ hbound2, (h8 k hk).2 hrcne]
            have : countLE (es' ++ [(k, j, v)]) k = countLE es' k + 1 := by
              simp [countLE, rowsOf, List.countP_append, List.countP_cons]
            rw [this, hcntLE]
            omega
        · have hrc' : rowCount es' k = 0 := by
            simp only [rowCount, List.countP_eq_zero]
            intro a ha
            have := hall' a ha
            simp only [decide_eq_true_eq]
            omega
          have hrc : rowCount (es' ++ [(i, j, v)]) k = 0 := by
            simp only [rowCount, hro, List.countP_append, List.countP_cons,
              List.countP_nil]
            simp only [rowCount] at hrc'
            simp [hrc']
            omega
          constructor
          · intro _
            rw [getD_set_other _ _ _ _ _ (by omega)]
            exact (h8 k hk).1 hrc'
          · intro hc
            exact absurd hrc hc

/-! ### The close-loop invariant -/

/-- The value position `i` of `row_ptr` holds after the empty-row fixing
loop of `close`: zero positions are replaced, left to right, by the
final value of the position before them. -/
def fixedVal (rp : List ℕ) : ℕ → ℕ
  | 0 => rp.getD 0 0
  | i + 1 => if rp.getD (i + 1) 0 = 0 then fixedVal rp i
    else rp.getD (i + 1) 0

/-- Characterization of the `close` loop over positions `1..n`: the
diagnostics are emitted exactly at the initially-zero positions, in
order; positions `0` and `> n` are untouched; positions `≤ n` hold
`fixedVal`; the length is preserved. -/
theorem closeFold_spec (rp : List ℕ) :
    ∀ n : ℕ, n < rp.length → ∀ ws0 : List ℕ,
      ((List.range' 1 n).foldl closeStep (rp, ws0)).2
        = ws0 ++ (List.range' 1 n).filter
            (fun i => decide (rp.getD i 0 = 0)) ∧
      (∀ i, i = 0 ∨ n < i →
        ((List.range' 1 n).foldl closeStep (rp, ws0)).1.getD i 0
          = rp.getD i 0) ∧
      (∀ i, i ≤ n →
        ((List.range' 1 n).foldl closeStep (rp, ws0)).1.getD i 0
          = fixedVal rp i) ∧
      ((List.range' 1 n).foldl closeStep (rp, ws0)).1.length
        = rp.length := by
  intro n
  induction n with
  | zero =>
    intro _ ws0
    refine ⟨by simp, fun i _ => rfl, fun i hi => ?_, rfl⟩
    have : i = 0 := by omega
    subst this
    rfl
  | succ n ih =>
    intro hn ws0
    have hn' : n < rp.length := by omega
    obtain ⟨ihw, ihout, ihin, ihlen⟩ := ih hn' ws0
    have hsplit : List.range' 1 (n + 1) = List.range' 1 n ++ [n + 1] := by
      have h : List.range' 1 (n + 1) = List.range' 1 n ++ [1 + 1 * n] :=
        List.range'_concat 1 n
      simp only [one_mul] at h
      rw [Nat.add_comm 1 n] at h
      exact h
    rw [hsplit, List.foldl_append]
    have huntouched :
        ((List.range' 1 n).foldl closeStep (rp, ws0)).1.getD (n + 1) 0
          = rp.getD (n + 1) 0 := ihout (n + 1) (Or.inr (by omega))
    by_cases hz : rp.getD (n + 1) 0 = 0
    · simp only [List.foldl_cons, List.foldl_nil, closeStep, huntouched,
        hz, if_pos, reduceIte]
      refine ⟨?_, ?_, ?_, ?_⟩
      · rw [ihw]
        rw [List.getD_eq_getElem?_getD] at hz
        simp [hsplit, List.filter_append, hz]
      · intro i hout
        rw [getD_set_other _ _ _ _ _ (by omega)]
        exact ihout i (by omega)
      · intro i hin
        rcases Nat.lt_or_ge i (n + 1) with hlt | hge
        · rw [getD_set_other _ _ _ _ _ (by omega)]
          exact ihin i (by omega)
        · have : i = n + 1 := by omega
          subst this
          rw [getD_set_same _ _ _ _ (by rw [ihlen]; omega)]
          rw [fixedVal, if_pos hz]
          simpa using ihin n (by omega)
      · rw [List.length_set, ihlen]
    · simp only [List.foldl_cons, List.foldl_nil, closeStep, huntouched,
        hz, if_neg, reduceIte]
      refine ⟨?_, ?_, ?_, ?_⟩
      · rw [ihw]
        have hz' : ¬rp[n + 1]?.getD 0 = 0 := by
          rw [← List.getD_eq_getElem?_getD]; exact hz
        simp [hsplit, List.filter_append, hz']
      · intro i hout
        exact ihout i (by omega)
      · intro i hin
        rcases Nat.lt_or_ge i (n + 1) with hlt | hge
        · exact ihin i (by omega)
        · have : i = n + 1 := by omega
          subst this
          rw [huntouched, fixedVal, if_neg hz]
      · exact ihlen

/-! ### Claim theorems -/

/-- Claim C1, counterexample to the claim as stated: the entry counter of
`set` is function-local `static` storage, so it is still `1` after a
first matrix with one entry has been built.  A second matrix then built
by the very same incremental protocol (`construct(1)`, one ascending
`set(0,0,5)` while `OPEN`) ends with `row_ptr[1] = 2`, not the cumulative
count `1` of entries inserted into this matrix through row `0`. -/
theorem claim1_counterexample :
    ¬ ((buildSteps (construct ℤ 1,
          (buildSteps (construct ℤ 1, 0) [(0, 0, 5)]).2) [(0, 0, 5)]).1.row_ptr.getD 1 0
        = countLE [((0 : ℕ), (0 : ℕ), (5 : ℤ))] 0) := by
  decide

/-- Claim C1 (amended): for a matrix built by the incremental protocol
(`construct(nrow)`, then row-ascending `set` calls with row and column
indices `< nrow` while the state is `OPEN`) starting with the shared
static counter at zero — as for the first matrix built in the process —
each `set(i, j, value)` appends `j` to `col_ind` and `value` to `val`,
and after all insertions every row `k` that received at least one entry
has `row_ptr[k+1]` equal to the cumulative count of entries inserted
into this matrix through row `k`. -/
theorem claim1_set_appends_rowptr_cumulative {α : Type}
    (nrow : ℕ) (es : List (Entry α))
    (hpos : 0 < nrow)
    (hsort : (rowsOf es).Pairwise (fun a b => a ≤ b))
    (hlt : ∀ r ∈ rowsOf es, r < nrow)
    (hcol : ∀ e ∈ es, e.2.1 < nrow) :
    (∀ (A : SparseMatrix α) (c i j : ℕ) (v : α),
      (A.set c i j v).1.col_ind = A.col_ind ++ [j] ∧
      (A.set c i j v).1.val = A.val ++ [v]) ∧
    (buildSteps (construct α nrow, 0) es).1.col_ind
      = es.map (fun e => e.2.1) ∧
    (buildSteps (construct α nrow, 0) es).1.val
      = es.map (fun e => e.2.2) ∧
    ∀ k, k < nrow → rowCount es k ≠ 0 →
      (buildSteps (construct α nrow, 0) es).1.row_ptr.getD (k + 1) 0
        = countLE es k := by
  obtain ⟨-, -, -, h4, h5, -, -, h8⟩ :=
    buildSteps_invariant nrow 0 es hsort hlt
  refine ⟨fun A c i j v => ⟨rfl, rfl⟩, h4, h5, fun k hk hne => ?_⟩
  simpa using (h8 k hk).2 hne

/-- Witness for claim C1 at a concrete build: two rows, one entry each,
counter starting at zero. -/
theorem claim1_witness :
    (0 : ℕ) < 2 ∧
    (rowsOf [((0 : ℕ), (0 : ℕ), (5 : ℤ)), (1, 1, 7)]).Pairwise
      (fun a b => a ≤ b) ∧
    (∀ r ∈ rowsOf [((0 : ℕ), (0 : ℕ), (5 : ℤ)), (1, 1, 7)], r < 2) ∧
    (1 : ℕ) < 2 ∧
    rowCount [((0 : ℕ), (0 : ℕ), (5 : ℤ)), (1, 1, 7)] 1 ≠ 0 ∧
    (buildSteps (construct ℤ 2, 0)
        [(0, 0, 5), (1, 1, 7)]).1.row_ptr.getD 2 0
      = countLE [((0 : ℕ), (0 : ℕ), (5 : ℤ)), (1, 1, 7)] 1 :=
  ⟨by decide, by decide, by decide, by decide, by decide,
    (claim1_set_appends_rowptr_cumulative 2
      [(0, 0, 5), (1, 1, 7)] (by decide) (by decide) (by decide)
      (by decide)).2.2.2 1 (by decide) (by decide)⟩

/-- Claim C10: the `static` counter in `set` is shared by every matrix
of the same element type.  Concretely: a first matrix of 3 entries
leaves the counter at 3; an independent (fresh-counter) build of a
two-entry trace produces `row_ptr = [0, 1, 2]`, but the same trace built
after the first matrix produces `row_ptr = [0, 4, 5]` — each offset
shifted by the first matrix's entry count, a two-run noninterference
violation. -/
theorem claim10_static_counter_interference :
    (buildSteps (construct ℤ 2, 0) [(0, 0, 1), (1, 0, 2), (1, 1, 3)]).2
      = 3 ∧
    (buildSteps (construct ℤ 2, 0) [(0, 0, 5), (1, 1, 7)]).1.row_ptr
      = [0, 1, 2] ∧
    (buildSteps (construct ℤ 2,
        (buildSteps (construct ℤ 2, 0)
          [(0, 0, 1), (1, 0, 2), (1, 1, 3)]).2)
        [(0, 0, 5), (1, 1, 7)]).1.row_ptr
      = [0, 1 + 3, 2 + 3] ∧
    (buildSteps (construct ℤ 2,
        (buildSteps (construct ℤ 2, 0)
          [(0, 0, 1), (1, 0, 2), (1, 1, 3)]).2)
        [(0, 0, 5), (1, 1, 7)]).1.row_ptr
      ≠ (buildSteps (construct ℤ 2, 0) [(0, 0, 5), (1, 1, 7)]).1.row_ptr := by
  refine ⟨by decide, by decide, by decide, by decide⟩

/-- Claim C4: for a matrix built by the incremental protocol (any
initial value of the shared static counter), `close()` gives every row
with zero inserted entries the previous row's cumulative offset (so
`row_ptr[k] == row_ptr[k+1]` for every empty row `k`), emits the
empty-row diagnostic exactly once for each empty row and never for a
non-empty one, leaves `row_ptr[k+1]` unchanged for every row with at
least one entry, and sets the state to `CLOSED`. -/
theorem claim4_close_empty_rows {α : Type} (nrow c0 : ℕ)
    (es : List (Entry α))
    (hpos : 0 < nrow)
    (hsort : (rowsOf es).Pairwise (fun a b => a ≤ b))
    (hlt : ∀ r ∈ rowsOf es, r < nrow) :
    ((buildSteps (construct α nrow, c0) es).1.close).1.state
      = MState.CLOSED ∧
    (∀ k, k < nrow → rowCount es k = 0 →
      ((buildSteps (construct α nrow, c0) es).1.close).1.row_ptr.getD (k + 1) 0
        = ((buildSteps (construct α nrow, c0) es).1.close).1.row_ptr.getD k 0) ∧
    (∀ k, k < nrow → rowCount es k ≠ 0 →
      ((buildSteps (construct α nrow, c0) es).1.close).1.row_ptr.getD (k + 1) 0
        = (buildSteps (construct α nrow, c0) es).1.row_ptr.getD (k + 1) 0) ∧
    (∀ k, k < nrow →
      ((buildSteps (construct α nrow, c0) es).1.close).2.count (k + 1)
        = if rowCount es k = 0 then 1 else 0) := by
  obtain ⟨h1, -, -, -, -, h6, h7, h8⟩ :=
    buildSteps_invariant nrow c0 es hsort hlt
  have hlenlt : nrow < (buildSteps (construct α nrow, c0) es).1.row_ptr.length := by
    rw [h6]; omega
  obtain ⟨hw, hout, hin, -⟩ :=
    closeFold_spec (buildSteps (construct α nrow, c0) es).1.row_ptr nrow hlenlt []
  have hcl : ((buildSteps (construct α nrow, c0) es).1.close).1.row_ptr
      = ((List.range' 1 nrow).foldl closeStep
          ((buildSteps (construct α nrow, c0) es).1.row_ptr, [])).1 := by
    simp [SparseMatrix.close, h1]
  have hws : ((buildSteps (construct α nrow, c0) es).1.close).2
      = ((List.range' 1 nrow).foldl closeStep
          ((buildSteps (construct α nrow, c0) es).1.row_ptr, [])).2 := by
    simp [SparseMatrix.close, h1]
  have hnz : ∀ k, k < nrow → rowCount es k ≠ 0 →
      (buildSteps (construct α nrow, c0) es).1.row_ptr.getD (k + 1) 0 ≠ 0 := by
    intro k hk hne
    rw [(h8 k hk).2 hne]
    have hle : rowCount es k ≤ countLE es k := by
      apply List.countP_mono_left
      intro a _ ha
      simp only [decide_eq_true_eq] at ha ⊢
      omega
    omega
  refine ⟨by simp [SparseMatrix.close], ?_, ?_, ?_⟩
  · intro k hk hem
    rw [hcl, hin (k + 1) (by omega), hin k (by omega)]
    rw [fixedVal, if_pos ((h8 k hk).1 hem)]
  · intro k hk hne
    rw [hcl, hin (k + 1) (by omega)]
    rw [fixedVal, if_neg (hnz k hk hne)]
  · intro k hk
    rw [hws, hw, List.nil_append]
    by_cases hem : rowCount es k = 0
    · rw [if_pos hem]
      apply List.count_eq_one_of_mem
      · apply List.Nodup.filter
        have : List.range' 1 nrow = (List.range nrow).map (fun t => 1 + t) := by
          rw [List.range'_eq_map_range]
        rw [this]
        exact (List.nodup_range nrow).map (fun a b hab => by omega)
      · rw [List.mem_filter]
        constructor
        · exact List.mem_range'_1.mpr ⟨by omega, by omega⟩
        · simpa using (h8 k hk).1 hem
    · rw [if_neg hem]
      rw [List.count_eq_zero]
      intro hmem
      have := (List.mem_filter.mp hmem).2
      simp only [decide_eq_true_eq] at this
      exact hnz k hk hem this

/-- Witness for claim C4 at a concrete build with empty row 1: rows 0
and 2 get one entry each, then `close()` equalizes `row_ptr[1..2]` and
emits the row-1 diagnostic once. -/
theorem claim4_witness :
    (0 : ℕ) < 3 ∧
    (rowsOf [((0 : ℕ), (0 : ℕ), (5 : ℤ)), (2, 1, 7)]).Pairwise
      (fun a b => a ≤ b) ∧
    (∀ r ∈ rowsOf [((0 : ℕ), (0 : ℕ), (5 : ℤ)), (2, 1, 7)], r < 3) ∧
    rowCount [((0 : ℕ), (0 : ℕ), (5 : ℤ)), (2, 1, 7)] 1 = 0 ∧
    ((buildSteps (construct ℤ 3, 0)
        [(0, 0, 5), (2, 1, 7)]).1.close).1.row_ptr.getD 2 0
      = ((buildSteps (construct ℤ 3, 0)
        [(0, 0, 5), (2, 1, 7)]).1.close).1.row_ptr.getD 1 0 ∧
    ((buildSteps (construct ℤ 3, 0)
        [(0, 0, 5), (2, 1, 7)]).1.close).2.count 2
      = if rowCount [((0 : ℕ), (0 : ℕ), (5 : ℤ)), (2, 1, 7)] 1 = 0
        then 1 else 0 :=
  ⟨by decide, by decide, by decide, by decide,
    (claim4_close_empty_rows 3 0 [(0, 0, 5), (2, 1, 7)] (by decide)
      (by decide) (by decide)).2.1 1 (by decide) (by decide),
    (claim4_close_empty_rows 3 0 [(0, 0, 5), (2, 1, 7)] (by decide)
      (by decide) (by decide)).2.2.2 1 (by decide)⟩

/-- The scan over a row returns exactly the first matching slot. -/
theorem findCol_rowRange_some {α : Type} (A : SparseMatrix α) (i j d : ℕ)
    (hmem : d ∈ A.rowRange i) (hcol : A.col_ind.getD d 0 = j)
    (hfirst : ∀ d' ∈ A.rowRange i, d' < d → A.col_ind.getD d' 0 ≠ j) :
    findCol A.col_ind j (A.rowRange i) = some d := by
  cases hf : findCol A.col_ind j (A.rowRange i) with
  | none =>
    rw [findCol_eq_none_iff] at hf
    exact absurd hcol (hf d hmem)
  | some d0 =>
    obtain ⟨hd0mem, hd0col⟩ := findCol_eq_some_mem _ _ _ _ hf
    rcases Nat.lt_trichotomy d0 d with h | h | h
    · exact absurd hd0col (hfirst d0 hd0mem h)
    · rw [h]
    · exact absurd hcol (findCol_range'_first A.col_ind j _ _ d0 hf d hmem h)

/-- Claim C2: on every matrix, `get(i, j)` returns the value of the
first stored entry of row `i` (in storage order within
`row_ptr[i]..row_ptr[i+1]`) whose column equals `j` — also in the
presence of duplicate columns — and returns zero when no stored entry of
row `i` has column `j`; consequently, when the stored columns of row `i`
are pairwise distinct, reading back any stored slot `d` of row `i` via
`get` returns the stored value. -/
theorem claim2_get_first_match_or_zero {α : Type} [Field α] :
    (∀ (A : SparseMatrix α) (i j d : ℕ), d ∈ A.rowRange i →
      A.col_ind.getD d 0 = j →
      (∀ d' ∈ A.rowRange i, d' < d → A.col_ind.getD d' 0 ≠ j) →
      A.get i j = A.val.getD d 0) ∧
    (∀ (A : SparseMatrix α) (i j : ℕ),
      (∀ d ∈ A.rowRange i, A.col_ind.getD d 0 ≠ j) → A.get i j = 0) ∧
    (∀ (A : SparseMatrix α) (i d : ℕ), d ∈ A.rowRange i →
      (∀ d1 ∈ A.rowRange i, ∀ d2 ∈ A.rowRange i, d1 < d2 →
        A.col_ind.getD d1 0 ≠ A.col_ind.getD d2 0) →
      A.get i (A.col_ind.getD d 0) = A.val.getD d 0) := by
  have hmain : ∀ (A : SparseMatrix α) (i j d : ℕ), d ∈ A.rowRange i →
      A.col_ind.getD d 0 = j →
      (∀ d' ∈ A.rowRange i, d' < d → A.col_ind.getD d' 0 ≠ j) →
      A.get i j = A.val.getD d 0 := by
    intro A i j d hmem hcol hfirst
    rw [SparseMatrix.get, findCol_rowRange_some A i j d hmem hcol hfirst]
  refine ⟨hmain, ?_, ?_⟩
  · intro A i j hnone
    rw [SparseMatrix.get, (findCol_eq_none_iff _ _ _).mpr hnone]
  · intro A i d hmem hdist
    exact hmain A i (A.col_ind.getD d 0) d hmem rfl
      (fun d' hd' hlt => hdist d' hd' d hmem hlt)

/-- Witness for claim C2 on `exM`: slot 1 of row 0 stores column 0, the
stored columns of row 0 are distinct, and `get(0, 0)` reads back the
stored value. -/
theorem claim2_witness :
    (1 ∈ exM.rowRange 0) ∧
    (∀ d1 ∈ exM.rowRange 0, ∀ d2 ∈ exM.rowRange 0, d1 < d2 →
      exM.col_ind.getD d1 0 ≠ exM.col_ind.getD d2 0) ∧
    exM.get 0 (exM.col_ind.getD 1 0) = exM.val.getD 1 0 :=
  ⟨by decide, by decide,
    claim2_get_first_match_or_zero.2.2 exM 0 1 (by decide) (by decide)⟩

/-- Claim C5: `diag(i)` returns `val[row_ptr[i]]`, the value of the
first stored entry of row `i`, with no search for a stored column equal
to `i`; when the first stored entry of a (non-empty) row `i` does have
column `i` — the caller convention — `diag(i)` equals the looked-up
`A(i, i)`, and the convention is needed: on `exM`, whose row 0 stores
column 1 first, `diag(0)` differs from the looked-up `A(0, 0)`. -/
theorem claim5_diag_is_first_entry :
    (∀ (α : Type) [Field α] (A : SparseMatrix α) (i : ℕ),
      A.diag i = A.val.getD (A.row_ptr.getD i 0) 0) ∧
    (∀ (α : Type) [Field α] (A : SparseMatrix α) (i : ℕ),
      A.row_ptr.getD i 0 < A.row_ptr.getD (i + 1) 0 →
      A.col_ind.getD (A.row_ptr.getD i 0) 0 = i →
      A.get i i = A.diag i) ∧
    exM.diag 0 ≠ exM.get 0 0 := by
  refine ⟨fun α _ A i => rfl, ?_, by decide⟩
  intro α _ A i hlt hcol
  have hmem : A.row_ptr.getD i 0 ∈ A.rowRange i := by
    simp only [SparseMatrix.rowRange]
    exact List.mem_range'_1.mpr ⟨le_rfl, by omega⟩
  have hfirst : ∀ d' ∈ A.rowRange i, d' < A.row_ptr.getD i 0 →
      A.col_ind.getD d' 0 ≠ i := by
    intro d' hd' hlt' _
    have hge : A.row_ptr.getD i 0 ≤ d' := by
      simp only [SparseMatrix.rowRange] at hd'
      exact (List.mem_range'_1.mp hd').1
    omega
  rw [SparseMatrix.get,
    findCol_rowRange_some A i i (A.row_ptr.getD i 0) hmem hcol hfirst]
  rfl

/-- Witness for claim C5 on the identity matrix `idM3`, whose rows do
follow the diagonal-first convention. -/
theorem claim5_witness :
    idM3.row_ptr.getD 0 0 < idM3.row_ptr.getD 1 0 ∧
    idM3.col_ind.getD (idM3.row_ptr.getD 0 0) 0 = 0 ∧
    idM3.get 0 0 = idM3.diag 0 :=
  ⟨by decide, by decide,
    claim5_diag_is_first_entry.2.1 ℚ idM3 0 (by decide) (by decide)⟩

/-- Claim C6: `get_mut(i, j)` (the non-const `operator()`) returns the
handle of the first stored entry of row `i` with column `j` when one
exists; when none exists it aborts (`none`), and in no case does it
insert a new entry: a successful write through the handle changes only
`val`, leaving `row_ptr`, `col_ind` and `nrow` untouched, while the
fatal case produces no matrix at all. -/
theorem claim6_get_mut_aborts_unpatterned {α : Type} :
    (∀ (A : SparseMatrix α) (i j : ℕ),
      A.get_mut i j = none ↔ ∀ d ∈ A.rowRange i, A.col_ind.getD d 0 ≠ j) ∧
    (∀ (A : SparseMatrix α) (i j d : ℕ), A.get_mut i j = some d →
      d ∈ A.rowRange i ∧ A.col_ind.getD d 0 = j ∧
      ∀ d' ∈ A.rowRange i, d' < d → A.col_ind.getD d' 0 ≠ j) ∧
    (∀ (A : SparseMatrix α) (i j : ℕ) (v : α) (A' : SparseMatrix α),
      A.writeAt i j v = some A' →
      A'.row_ptr = A.row_ptr ∧ A'.col_ind = A.col_ind ∧
      A'.nrow = A.nrow ∧ A'.state = A.state) ∧
    (∀ (A : SparseMatrix α) (i j : ℕ) (v : α),
      A.writeAt i j v = none ↔ A.get_mut i j = none) := by
  refine ⟨?_, ?_, ?_, ?_⟩
  · intro A i j
    exact findCol_eq_none_iff A.col_ind j (A.rowRange i)
  · intro A i j d hsome
    obtain ⟨hmem, hcol⟩ := findCol_eq_some_mem _ _ _ _ hsome
    refine ⟨hmem, hcol, ?_⟩
    intro d' hd' hlt
    exact findCol_range'_first A.col_ind j _ _ d hsome d' hd' hlt
  · intro A i j v A' hw
    obtain ⟨d, -, hA'⟩ := Option.map_eq_some'.mp hw
    rw [← hA']
    exact ⟨rfl, rfl, rfl, rfl⟩
  · intro A i j v
    exact Option.map_eq_none'

/-- Witness for claim C6 on `exM`: the patterned cell `(0, 0)` yields
the handle of slot 1 (the first match), and the unpatterned cell
`(1, 1)` is fatal. -/
theorem claim6_witness :
    exM.get_mut 0 0 = some 1 ∧
    (1 ∈ exM.rowRange 0 ∧ exM.col_ind.getD 1 0 = 0 ∧
      ∀ d' ∈ exM.rowRange 0, d' < 1 → exM.col_ind.getD d' 0 ≠ 0) ∧
    exM.get_mut 1 1 = none ∧
    exM.writeAt 1 1 3 = none :=
  ⟨by decide,
    claim6_get_mut_aborts_unpatterned.2.1 exM 0 0 1 (by decide),
    by decide,
    (claim6_get_mut_aborts_unpatterned.2.2.2 exM 1 1 3).mpr (by decide)⟩

/-! ### Kernel helper lemmas -/

/-- The kernel `multiply` overwrites `y` with the per-row sums scaled by `scalar`:
the result is a pure function of the matrix, `x` and `scalar`. -/
theorem multiply_eq_map {α : Type} [Field α] (A : SparseMatrix α)
    (x y : List α) (s : α) (hy : y.length = A.nrow) :
    A.multiply x y s
      = (List.range A.nrow).map (fun i => A.rowSum x i * s) := by
  have hlen : (A.multiply x y s).length = y.length := by
    simp only [SparseMatrix.multiply]
    exact foldl_update_length
      (fun i _ => ((A.rowRange i).foldl
        (fun acc d => acc + A.val.getD d 0 * x.getD (A.col_ind.getD d 0) 0)
        0) * s) A.nrow y
  apply List.ext_getElem
  · rw [hlen, hy, List.length_map, List.length_range]
  · intro i h1 h2
    have hi : i < A.nrow := by simpa using h2
    have hgd : (A.multiply x y s).getD i 0
        = ((A.rowRange i).foldl
            (fun acc d => acc + A.val.getD d 0 * x.getD (A.col_ind.getD d 0) 0)
            0) * s := by
      simp only [SparseMatrix.multiply]
      exact foldl_update_getD_lt
        (fun i _ => ((A.rowRange i).foldl
          (fun acc d => acc + A.val.getD d 0 * x.getD (A.col_ind.getD d 0) 0)
          0) * s) A.nrow y i hi (by omega) 0
    rw [← List.getD_eq_getElem (A.multiply x y s) 0 h1, hgd]
    rw [foldl_add_eq
      (fun d => A.val.getD d 0 * x.getD (A.col_ind.getD d 0) 0)
      (A.rowRange i) 0]
    simp [SparseMatrix.rowSum]

/-- Claim C3: for vectors of matching length, `multiply(x, y, scalar)`
sets every `y[i]` to the stored-entry row sum of row `i` against `x`,
scaled by `scalar` (equivalently `scalar` times that sum); only stored
entries contribute, the whole prior contents of `y` are overwritten (the
result does not depend on `y`), and `x` is untouched (the model of
`multiply` is pure in `x`). -/
theorem claim3_multiply_scaled_row_sums {α : Type} [Field α]
    (A : SparseMatrix α) (x y : List α) (s : α)
    (hx : x.length = A.nrow) (hy : y.length = A.nrow) :
    A.multiply x y s
      = (List.range A.nrow).map (fun i => A.rowSum x i * s) ∧
    (A.multiply x y s).length = A.nrow ∧
    (∀ i, i < A.nrow → (A.multiply x y s).getD i 0 = s * A.rowSum x i) ∧
    (∀ y' : List α, y'.length = A.nrow →
      A.multiply x y s = A.multiply x y' s) := by
  have hm := multiply_eq_map A x y s hy
  refine ⟨hm, by rw [hm]; simp, ?_, ?_⟩
  · intro i hi
    rw [hm]
    have : ((List.range A.nrow).map (fun i => A.rowSum x i * s)).getD i 0
        = A.rowSum x i * s := by
      rw [List.getD_eq_getElem _ 0 (by simpa using hi)]
      simp
    rw [this, mul_comm]
  · intro y' hy'
    rw [hm, multiply_eq_map A x y' s hy']

/-- Witness for claim C3 on the identity matrix `idM3` with
`x = [2, 3, 4]` and an arbitrary prior `y = [9, 9, 9]`. -/
theorem claim3_witness :
    ([(2 : ℚ), 3, 4].length = idM3.nrow) ∧
    ([(9 : ℚ), 9, 9].length = idM3.nrow) ∧
    ((0 : ℕ) < idM3.nrow) ∧
    (idM3.multiply [2, 3, 4] [9, 9, 9] 1).getD 0 0
      = 1 * idM3.rowSum [2, 3, 4] 0 :=
  ⟨by decide, by decide, by decide,
    (claim3_multiply_scaled_row_sums idM3 [2, 3, 4] [9, 9, 9] 1
      (by decide) (by decide)).2.2.1 0 (by decide)⟩

/-- The sum of the element-wise self-products is the sum of squares. -/
theorem zipWith_mul_self_sum {α : Type} [Field α] (l : List α) :
    (List.zipWith (fun s t => s * t) l l).sum
      = (l.map (fun t => t ^ 2)).sum := by
  induction l with
  | nil => simp
  | cons a as ih =>
    simp only [List.zipWith_cons_cons, List.map_cons, List.sum_cons, ih]
    ring_nf

/-- Value of `getD` on a map over `List.range`, index in range. -/
theorem getD_map_range {α : Type} (g : ℕ → α) (n i : ℕ) (h : i < n)
    (d : α) : ((List.range n).map g).getD i d = g i := by
  rw [List.getD_eq_getElem _ d (by simpa using h)]
  simp

/-- Element-wise addition of a range-map and a list of length `n`. -/
theorem zipWith_add_map_range {α : Type} [Field α] (g : ℕ → α) (n : ℕ)
    (b : List α) (hb : b.length = n) :
    List.zipWith (fun s t => s + t) ((List.range n).map g) b
      = (List.range n).map (fun i => g i + b.getD i 0) := by
  apply List.ext_getElem
  · simp [hb]
  · intro i h1 h2
    have hib : i < b.length := by
      simp only [List.length_zipWith, List.length_map, List.length_range,
        lt_min_iff] at h1
      exact h1.2
    simp only [List.getElem_zipWith, List.getElem_map, List.getElem_range]
    rw [List.getD_eq_getElem b 0 hib]

/-- Claim C7: for a matrix and vectors of matching length, one Jacobi
step computes the residual `r[i] = rhs[i] - (A·x)[i]` from the
pre-update `x`, adds `r[i] / diag(i)` to every component of `x` (all
components using the same pre-update residual), and returns the
Euclidean norm `sqrt(Σ r[i]²)` of the pre-update residual; `rhs` is
never written (the model is pure in `rhs`).  On the 3×3 identity
pattern with `x = [0,0,0]`, `rhs = [2,3,4]`, one step yields
`x = [2,3,4]` and returns `sqrt 29`. -/
theorem claim7_jacobi_step :
    (∀ (A : SparseMatrix ℚ) (x rhs : List ℚ),
      x.length = A.nrow → rhs.length = A.nrow →
      (A.Jacobi_step x rhs).1.length = A.nrow ∧
      (∀ i, i < A.nrow → (A.Jacobi_step x rhs).1.getD i 0
        = x.getD i 0 + (rhs.getD i 0 - A.rowSum x i) / A.diag i) ∧
      (A.Jacobi_step x rhs).2
        = ((List.range A.nrow).map
            (fun i => (rhs.getD i 0 - A.rowSum x i) ^ 2)).sum ∧
      Jacobi_norm A x rhs
        = Real.sqrt ((((List.range A.nrow).map
            (fun i => (rhs.getD i 0 - A.rowSum x i) ^ 2)).sum : ℚ) : ℝ)) ∧
    (idM3.Jacobi_step [0, 0, 0] [2, 3, 4]).1 = [2, 3, 4] ∧
    Jacobi_norm idM3 [0, 0, 0] [2, 3, 4] = Real.sqrt 29 := by
  have hgen : ∀ (A : SparseMatrix ℚ) (x rhs : List ℚ),
      x.length = A.nrow → rhs.length = A.nrow →
      (A.Jacobi_step x rhs).1.length = A.nrow ∧
      (∀ i, i < A.nrow → (A.Jacobi_step x rhs).1.getD i 0
        = x.getD i 0 + (rhs.getD i 0 - A.rowSum x i) / A.diag i) ∧
      (A.Jacobi_step x rhs).2
        = ((List.range A.nrow).map
            (fun i => (rhs.getD i 0 - A.rowSum x i) ^ 2)).sum ∧
      Jacobi_norm A x rhs
        = Real.sqrt ((((List.range A.nrow).map
            (fun i => (rhs.getD i 0 - A.rowSum x i) ^ 2)).sum : ℚ) : ℝ) := by
    intro A x rhs hx hrhs
    have hr0 : A.multiply x (List.replicate A.nrow 0) (-1)
        = (List.range A.nrow).map (fun i => A.rowSum x i * (-1)) :=
      multiply_eq_map A x (List.replicate A.nrow 0) (-1) (by simp)
    have hr : List.zipWith (fun s t => s + t)
          (A.multiply x (List.replicate A.nrow 0) (-1)) rhs
        = (List.range A.nrow).map
            (fun i => A.rowSum x i * (-1) + rhs.getD i 0) := by
      rw [hr0]
      exact zipWith_add_map_range (fun i => A.rowSum x i * (-1))
        A.nrow rhs hrhs
    have hrpt : ∀ i, i < A.nrow →
        (List.zipWith (fun s t => s + t)
          (A.multiply x (List.replicate A.nrow 0) (-1)) rhs).getD i 0
        = rhs.getD i 0 - A.rowSum x i := by
      intro i hi
      rw [hr, getD_map_range _ _ _ hi]
      ring
    have hradicand : (A.Jacobi_step x rhs).2
        = ((List.range A.nrow).map
            (fun i => (rhs.getD i 0 - A.rowSum x i) ^ 2)).sum := by
      simp only [SparseMatrix.Jacobi_step, dot]
      rw [zipWith_mul_self_sum, hr, List.map_map]
      apply congrArg
      apply List.map_congr_left
      intro a ha
      simp only [Function.comp]
      ring
    refine ⟨?_, ?_, hradicand, ?_⟩
    · simp only [SparseMatrix.Jacobi_step]
      rw [foldl_update_length
        (fun i v => v.getD i 0
          + (List.zipWith (fun s t => s + t)
              (A.multiply x (List.replicate A.nrow 0) (-1)) rhs).getD i 0
            / A.diag i) A.nrow x]
      exact hx
    · intro i hi
      simp only [SparseMatrix.Jacobi_step]
      rw [foldl_update_getD_lt
        (fun i t => t
          + (List.zipWith (fun s t => s + t)
              (A.multiply x (List.replicate A.nrow 0) (-1)) rhs).getD i 0
            / A.diag i) A.nrow x i hi (by omega) 0]
      rw [hrpt i hi]
    · rw [Jacobi_norm, hradicand]
  refine ⟨hgen, ?_, ?_⟩
  · have hA : idM3 = ⟨3, [0, 1, 2, 3], [0, 1, 2], [1, 1, 1],
        MState.CLOSED⟩ := by decide
    have hr3 : List.range 3 = [0, 1, 2] := by decide
    rw [hA]
    simp only [SparseMatrix.Jacobi_step, SparseMatrix.multiply,
      SparseMatrix.rowRange, SparseMatrix.diag, dot, hr3]
    norm_num [List.getD, List.range', List.replicate]
  · have hA : idM3 = ⟨3, [0, 1, 2, 3], [0, 1, 2], [1, 1, 1],
        MState.CLOSED⟩ := by decide
    have hr3 : List.range 3 = [0, 1, 2] := by decide
    have h29 : (idM3.Jacobi_step [0, 0, 0] [2, 3, 4]).2 = 29 := by
      rw [hA]
      simp only [SparseMatrix.Jacobi_step, SparseMatrix.multiply,
        SparseMatrix.rowRange, SparseMatrix.diag, dot, hr3]
      norm_num [List.getD, List.range', List.replicate]
    rw [Jacobi_norm, h29]
    norm_num

/-- Witness for claim C7: the general component applied to `idM3` with
concrete vectors, the residual-update formula instantiated at row 0. -/
theorem claim7_witness :
    ([(0 : ℚ), 0, 0].length = idM3.nrow) ∧
    ([(2 : ℚ), 3, 4].length = idM3.nrow) ∧
    ((0 : ℕ) < idM3.nrow) ∧
    (idM3.Jacobi_step [0, 0, 0] [2, 3, 4]).1.getD 0 0
      = [(0 : ℚ), 0, 0].getD 0 0
        + ([(2 : ℚ), 3, 4].getD 0 0 - idM3.rowSum [0, 0, 0] 0)
          / idM3.diag 0 :=
  ⟨by decide, by decide, by decide,
    (claim7_jacobi_step.1 idM3 [0, 0, 0] [2, 3, 4] (by decide)
      (by decide)).2.1 0 (by decide)⟩

/-- The source `SOR_step` loop body equals its spec-side form: the
subtracting fold computes `rhs[i]` minus the stored-entry row sum. -/
theorem sorRow_eq_spec {α : Type} [Field α] (A : SparseMatrix α)
    (rhs : List α) (omg : α) (p : List α × α) (i : ℕ) :
    sorRow A rhs omg p i = sorRowSpec A rhs omg p i := by
  simp only [sorRow, sorRowSpec, SparseMatrix.rowSum]
  rw [foldl_sub_eq
    (fun d => A.val.getD d 0 * p.1.getD (A.col_ind.getD d 0) 0)
    (A.rowRange i) (rhs.getD i 0)]

/-- The ascending fold of the `SOR_step` body over the first `n` rows
is the spec-side ascending sweep. -/
theorem sorFold_eq_specAux {α : Type} [Field α] (A : SparseMatrix α)
    (rhs : List α) (omg : α) (x : List α) :
    ∀ n : ℕ, (List.range n).foldl (sorRow A rhs omg) (x, 0)
      = sorSpecAux A rhs omg x n := by
  intro n
  induction n with
  | zero => rfl
  | succ n ih =>
    rw [List.range_succ, List.foldl_append, List.foldl_cons,
      List.foldl_nil, ih, sorRow_eq_spec]
    rfl

/-- Claim C8: `sor_step` processes rows in ascending order; for each
row `i` it computes `r` as `rhs[i]` minus the stored-entry row sum
against the current `x` (so this sweep's earlier updates are seen for
already-visited columns and stale values for the rest), then updates
`x[i] += omega * r / diag(i)` and accumulates `res += r*r`; the return
value is `sqrt(res)` over the pre-update per-row residuals accumulated
during the sweep, not a recomputed global residual. -/
theorem claim8_sor_step :
    (∀ (α : Type) [Field α] (A : SparseMatrix α) (x rhs : List α)
       (omg : α),
      A.SOR_step x rhs omg = sorSpec A x rhs omg) ∧
    (∀ (α : Type) [Field α] (A : SparseMatrix α) (rhs x : List α)
       (omg : α) (n : ℕ),
      sorSpecAux A rhs omg x (n + 1)
        = sorRowSpec A rhs omg (sorSpecAux A rhs omg x n) n) ∧
    (∀ (A : SparseMatrix ℚ) (x rhs : List ℚ) (omg : ℚ),
      SOR_norm A x rhs omg
        = Real.sqrt (((sorSpec A x rhs omg).2 : ℚ) : ℝ)) := by
  have h : ∀ (α : Type) [Field α] (A : SparseMatrix α) (x rhs : List α)
      (omg : α), A.SOR_step x rhs omg = sorSpec A x rhs omg := by
    intro α _ A x rhs omg
    exact sorFold_eq_specAux A rhs omg x A.nrow
  refine ⟨h, fun α _ A rhs x omg n => rfl, fun A x rhs omg => ?_⟩
  rw [SOR_norm, h ℚ A x rhs omg]

/-- The forward loop of `SSOR_step` (which drops the residual) computes
the same `x` as the spec-side ascending sweep. -/
theorem ssorFwd_eq_specAux {α : Type} [Field α] (A : SparseMatrix α)
    (rhs : List α) (omg : α) (x : List α) :
    ∀ n : ℕ, (List.range n).foldl (ssorFwdRow A rhs omg) x
      = (sorSpecAux A rhs omg x n).1 := by
  intro n
  induction n with
  | zero => rfl
  | succ n ih =>
    rw [List.range_succ, List.foldl_append, List.foldl_cons,
      List.foldl_nil, ih]
    show _ = (sorRowSpec A rhs omg (sorSpecAux A rhs omg x n) n).1
    simp only [ssorFwdRow, sorRowSpec, SparseMatrix.rowSum]
    rw [foldl_sub_eq
      (fun d => A.val.getD d 0
        * (sorSpecAux A rhs omg x n).1.getD (A.col_ind.getD d 0) 0)
      (A.rowRange n) (rhs.getD n 0)]

/-- The backward (descending-row) fold of the `SOR_step` body is the
spec-side descending sweep. -/
theorem ssorBack_eq_specAux {α : Type} [Field α] (A : SparseMatrix α)
    (rhs : List α) (omg : α) :
    ∀ (k : ℕ) (p : List α × α),
      (List.range k).reverse.foldl (sorRow A rhs omg) p
        = ssorBackAux A rhs omg k p := by
  intro k
  induction k with
  | zero => intro p; rfl
  | succ k ih =>
    intro p
    rw [List.range_succ, List.reverse_append]
    simp only [List.reverse_singleton, List.singleton_append,
      List.foldl_cons]
    rw [ih (sorRow A rhs omg p k), sorRow_eq_spec]
    rfl

/-- Claim C9: `ssor_step` performs one forward sweep in ascending row
order with the `sor_step` update rule and its residual discarded, then
one backward sweep in descending row order with the same update rule on
the `x` produced by the forward sweep, and returns the accumulated
residual norm of the backward sweep only. -/
theorem claim9_ssor_step :
    (∀ (α : Type) [Field α] (A : SparseMatrix α) (x rhs : List α)
       (omg : α),
      A.SSOR_step x rhs omg = ssorSpec A x rhs omg) ∧
    (∀ (α : Type) [Field α] (A : SparseMatrix α) (x rhs : List α)
       (omg : α),
      ssorSpec A x rhs omg
        = ssorBackAux A rhs omg A.nrow ((sorSpec A x rhs omg).1, 0)) ∧
    (∀ (A : SparseMatrix ℚ) (x rhs : List ℚ) (omg : ℚ),
      SSOR_norm A x rhs omg
        = Real.sqrt (((ssorSpec A x rhs omg).2 : ℚ) : ℝ)) := by
  have h : ∀ (α : Type) [Field α] (A : SparseMatrix α) (x rhs : List α)
      (omg : α), A.SSOR_step x rhs omg = ssorSpec A x rhs omg := by
    intro α _ A x rhs omg
    show (List.range A.nrow).reverse.foldl (sorRow A rhs omg)
        ((List.range A.nrow).foldl (ssorFwdRow A rhs omg) x, 0)
      = ssorSpec A x rhs omg
    rw [ssorFwd_eq_specAux A rhs omg x A.nrow]
    exact ssorBack_eq_specAux A rhs omg A.nrow _
  refine ⟨h, fun α _ A x rhs omg => rfl, fun A x rhs omg => ?_⟩
  rw [SSOR_norm, h ℚ A x rhs omg]

end FemBook
